import Mathlib

/-!
Verification of the apm package-manager cache layer (Go sources) against its
natural-language specification.  The Go code is shallowly embedded: SQL tables
become lists of row structures, `database/sql` transactions become explicit
state passing with injected failure points, and Go maps become association
lists.  Definitions follow the Go sources file by file:

* namespace `apt`     — `src/unnamed/part_000` (package `apt`, host table
  `host_image_packages`)
* namespace `service` — `src/cmd/distrobox/service/database.go` (package
  `service`, table `distrobox_packages`)
* namespace `system`  — `src/unnamed/part_001` (package `system`, the
  transaction-coordinator actions)

SQLite semantics used by the embedding: the `LIKE` operator is modelled with
ASCII-case-insensitive matching and the `%`/`_` wildcards, exactly as SQLite
evaluates `LIKE` without an `ESCAPE` clause.
-/

/-- ASCII lowercasing, the case folding SQLite's default `LIKE` applies. -/
def sqlLower (c : Char) : Char :=
  if 'A' ≤ c ∧ c ≤ 'Z' then Char.ofNat (c.toNat + 32) else c

/-- ASCII uppercasing (the effect of `strings.ToUpper` on the ASCII sort
orders the code compares against). -/
def asciiUpper (c : Char) : Char :=
  if 'a' ≤ c ∧ c ≤ 'z' then Char.ofNat (c.toNat - 32) else c

/-- Character-wise ASCII-case-insensitive equality of two character lists. -/
def ciEqL : List Char → List Char → Bool
  | [], [] => true
  | c :: v, d :: w => (sqlLower c = sqlLower d) && ciEqL v w
  | _, _ => false

/-- SQLite `LIKE` matching of a pattern against a text, both as character
lists: `%` matches any (possibly empty) sequence — rendered as matching the
rest of the pattern against some tail of the text — `_` matches any single
character, and ordinary characters match ASCII-case-insensitively. -/
def likeMatch : List Char → List Char → Bool
  | [], s => s.isEmpty
  | c :: p, s =>
      if c = '%' then s.tails.any (fun t => likeMatch p t)
      else if c = '_' then
        match s with
        | [] => false
        | _ :: s' => likeMatch p s'
      else
        match s with
        | [] => false
        | d :: s' => (sqlLower c = sqlLower d) && likeMatch p s'

/-- `strings.Join(tokens, ",")` from Go, at the character-list level. -/
def joinComma : List (List Char) → List Char
  | [] => []
  | [t] => t
  | t :: ts => t ++ ',' :: joinComma ts

namespace apt

/-- One row of `host_image_packages` (struct `Package` of the `apt` Go
package); `Depends`/`Provides` are kept as token lists exactly as the Go
struct holds them before `strings.Join` serialises them with `","`. -/
structure Package where
  name : String
  section' : String
  installedSize : Int
  maintainer : String
  version : String
  versionInstalled : String
  depends : List String
  provides : List String
  size : Int
  filename : String
  description : String
  changelog : String
  installed : Bool
deriving DecidableEq, Repr

/-- The host package table: `none` while `host_image_packages` does not exist,
`some rows` once it does. -/
abbrev PackageTable := Option (List Package)

/-- The batched `INSERT` loop of `SavePackagesToDB` (part_000 lines 117-168):
packages are inserted in batches of 1000 inside one transaction; `failOn j`
injects an `Exec` failure for batch ordinal `j`, upon which the transaction is
rolled back (`tx.Rollback`) and the error returned. On success the committed
rows are returned. -/
def insertBatches (failOn : Nat → Bool) (j : Nat) : List Package → Except Unit (List Package)
  | [] => Except.ok []
  | x :: xs =>
      if failOn j then Except.error ()
      else
        (insertBatches failOn (j + 1) (xs.drop 999)).map
          (fun rest => (x :: xs.take 999) ++ rest)
termination_by l => l.length
decreasing_by
  simp only [List.length_drop, List.length_cons]
  omega

/-- `SavePackagesToDB` of the `apt` package (part_000 lines 82-174): create
the table if absent, then `DELETE FROM host_image_packages` **outside** the
transaction, then run the batched inserts inside a transaction.  Returns the
operation outcome together with the table state the database is left in: a
batch failure rolls back only the inserts, to the already-emptied table. -/
def SavePackagesToDB (failOn : Nat → Bool) (st : PackageTable) (packages : List Package) :
    Except Unit Unit × PackageTable :=
  -- CREATE TABLE IF NOT EXISTS
  let _afterCreate : PackageTable := some (st.getD [])
  -- DELETE FROM host_image_packages, committed immediately (not in the tx)
  let afterDelete : PackageTable := some []
  match insertBatches failOn 0 packages with
  | Except.ok rows => (Except.ok (), some rows)
  | Except.error _ => (Except.error (), afterDelete)

/-- `GetPackageByName` (part_000 lines 177-231): `WHERE name = ?` point
lookup; a missing row surfaces as the "failed to get information about
package %s" error. -/
def GetPackageByName (table : List Package) (packageName : String) : Except String Package :=
  match table.find? (fun p => p.name = packageName) with
  | some p => Except.ok p
  | none => Except.error ("failed to get information about package " ++ packageName)

/-- `SyncPackageInstallationInfo` (part_000 lines 234-301): the installed set
(a Go `map[string]string`, here an association list with distinct keys) is
staged into `tmp_installed`, then one `UPDATE` sets, for every row,
`installed = 1` iff a staged name matches and `versionInstalled` to the staged
version via `COALESCE(…, '')`. -/
def SyncPackageInstallationInfo (table : List Package) (installedPackages : List (String × String)) :
    List Package :=
  table.map fun p =>
    { p with
      installed := (installedPackages.lookup p.name).isSome
      versionInstalled := (installedPackages.lookup p.name).getD "" }

/-- `PackageDatabaseExist` (part_000 lines 592-602): runs
`SELECT COUNT(*) FROM host_image_packages`, scans the count, and returns the
scan error — the scanned count itself is never compared with zero, so an
existing table always yields success. -/
def PackageDatabaseExist (st : PackageTable) : Except Unit Unit :=
  match st with
  | none => Except.error ()
  | some rows =>
      let _count := rows.length
      Except.ok ()

/-- The `provides`/`depends` filter condition of `QueryHostImagePackages` and
`CountHostImagePackages` (part_000 lines 426-433, 559-566):
`',' || field || ',' LIKE '%,' || v || ',%'`, where the column text is the
comma-join of the row's token list. -/
def matchesMultiC (v : List Char) (tokens : List (List Char)) : Bool :=
  likeMatch ('%' :: ',' :: v ++ [',', '%']) (',' :: joinComma tokens ++ [','])

/-- String-level wrapper of `matchesMultiC` for a row's `provides`/`depends`
list as the Go code stores it. -/
def matchesMulti (v : String) (tokens : List String) : Bool :=
  matchesMultiC v.toList (tokens.map String.toList)

end apt

namespace service

/-- One row of `distrobox_packages` (struct `PackageInfo` of the distrobox
`service` Go package). -/
structure PackageInfo where
  name : String
  version : String
  description : String
  container : String
  installed : Bool
  exporting : Bool
  manager : String
deriving DecidableEq, Repr

/-- `allowedSortFields` of database.go (lines 45-53). -/
def allowedSortFields : List String :=
  ["name", "version", "description", "container", "installed", "exporting", "manager"]

/-- `allowedFilterFields` of database.go (lines 56-64). -/
def allowedFilterFields : List String :=
  ["name", "version", "description", "container", "installed", "exporting", "manager"]

/-- A filter value, the `interface{}` the Go query functions receive. -/
inductive Value where
  | str (s : String)
  | intV (n : Int)
  | boolV (b : Bool)
deriving DecidableEq, Repr

/-- Modelled from the spec: `helper.ParseBool` is not under src/ (only its
callers are).  The spec says a boolean field "accepts any syntactic boolean
representation (`\"1\"`, `\"true\"`, `\"yes\"`, case-insensitive, etc.);
unparseable boolean values are silently skipped". -/
def ParseBool : Value → Option Bool
  | Value.boolV b => some b
  | Value.intV n => if n = 1 then some true else if n = 0 then some false else none
  | Value.str s =>
      let l := s.toList.map sqlLower
      if l ∈ [['1'], ['t'], ['t', 'r', 'u', 'e'], ['y'], ['y', 'e', 's'], ['o', 'n']] then
        some true
      else if l ∈ [['0'], ['f'], ['f', 'a', 'l', 's', 'e'], ['n'], ['n', 'o'],
          ['o', 'f', 'f']] then
        some false
      else none

/-- The two error shapes `QueryPackages` can return before touching the
table: "Invalid filter field: %s. Available fields: %s." and
"Invalid sort field: %s. Available fields: %s.". -/
inductive QueryError where
  | invalidFilterField (field : String) (allowed : List String)
  | invalidSortField (field : String) (allowed : List String)
deriving DecidableEq, Repr

/-- One `WHERE` condition generated by `QueryPackages`/`CountTotalPackages`. -/
inductive Cond where
  | containerEq (c : String)
  | boolEq (field : String) (b : Bool)
  | likeSub (field : String) (v : String)
  | eqVal (field : String) (v : Value)
deriving DecidableEq, Repr

/-- Text of a `TEXT` column of `distrobox_packages` (the non-boolean
allow-listed fields). -/
def textField (p : PackageInfo) : String → String
  | "name" => p.name
  | "version" => p.version
  | "description" => p.description
  | "container" => p.container
  | "manager" => p.manager
  | _ => ""

/-- How SQLite renders a bound non-string value when compared against a
column with `TEXT` affinity. -/
def valueText : Value → String
  | Value.str s => s
  | Value.intV n => toString n
  | Value.boolV b => if b then "1" else "0"

/-- Evaluation of one generated condition on a row: `container = ?` and
`field = ?` are exact comparisons, `field LIKE ?` with pattern `%value%` is
SQLite `LIKE`, and the boolean fields compare the stored 0/1 flag. -/
def evalCond (p : PackageInfo) : Cond → Bool
  | Cond.containerEq c => p.container = c
  | Cond.boolEq f b => if f = "installed" then p.installed = b else p.exporting = b
  | Cond.likeSub f v => likeMatch ('%' :: v.toList ++ ['%']) (textField p f).toList
  | Cond.eqVal f v => textField p f = valueText v

/-- The filter loop of `QueryPackages` (database.go lines 238-268): each
field is checked against the allow-list (error on miss), `installed`/
`exporting` values go through `ParseBool` and are skipped when unparseable,
string values become `LIKE '%v%'` conditions and other values exact
comparisons, in filter order. -/
def buildConds : List (String × Value) → Except QueryError (List Cond)
  | [] => Except.ok []
  | (field, value) :: rest =>
      if field ∈ allowedFilterFields then
        if field = "installed" ∨ field = "exporting" then
          match ParseBool value with
          | none => buildConds rest
          | some b => (buildConds rest).map (fun cs => Cond.boolEq field b :: cs)
        else
          match value with
          | Value.str s => (buildConds rest).map (fun cs => Cond.likeSub field s :: cs)
          | v => (buildConds rest).map (fun cs => Cond.eqVal field v :: cs)
      else Except.error (QueryError.invalidFilterField field allowedFilterFields)

/-- `ORDER BY` comparison for one allow-listed sort field: the 0/1 boolean
columns compare numerically, the `TEXT` columns lexicographically. -/
def sortKeyLe (f : String) (a b : PackageInfo) : Bool :=
  if f = "installed" then (if a.installed then 1 else 0) ≤ ((if b.installed then 1 else 0) : Nat)
  else if f = "exporting" then
    (if a.exporting then 1 else 0) ≤ ((if b.exporting then 1 else 0) : Nat)
  else textField a f ≤ textField b f

/-- `ORDER BY sortField sortOrder` (database.go lines 272-281): an order other
than `ASC`/`DESC` (case-insensitive) defaults to `ASC`; no sort when the field
is empty. -/
def sortRows (sortField sortOrder : String) (rows : List PackageInfo) : List PackageInfo :=
  if sortField = "" then rows
  else if sortOrder.toList.map asciiUpper = ['D', 'E', 'S', 'C'] then
    rows.mergeSort (fun a b => sortKeyLe sortField b a)
  else rows.mergeSort (fun a b => sortKeyLe sortField a b)

/-- `LIMIT`/`OFFSET` (database.go lines 283-290): `limit ≤ 0` disables
pagination; `OFFSET` is added only when positive. -/
def applyLimit (limit offset : Int) (rows : List PackageInfo) : List PackageInfo :=
  if limit > 0 then
    if offset > 0 then (rows.drop offset.toNat).take limit.toNat
    else rows.take limit.toNat
  else rows

/-- `QueryPackages` (database.go lines 225-320) over a table state `rows`:
the container condition, the validated filter conditions, sort-field
validation, then evaluation (`WHERE … AND …`, `ORDER BY`, `LIMIT`/`OFFSET`).
Validation happens before any row is read. -/
def QueryPackages (rows : List PackageInfo) (containerName : String)
    (filters : List (String × Value)) (sortField sortOrder : String)
    (limit offset : Int) : Except QueryError (List PackageInfo) :=
  let baseConds : List Cond :=
    if containerName ≠ "" then [Cond.containerEq containerName] else []
  match buildConds filters with
  | Except.error e => Except.error e
  | Except.ok conds =>
      if sortField ≠ "" ∧ sortField ∉ allowedSortFields then
        Except.error (QueryError.invalidSortField sortField allowedSortFields)
      else
        Except.ok (applyLimit limit offset
          (sortRows sortField sortOrder
            (rows.filter (fun p => (baseConds ++ conds).all (evalCond p)))))

/-- `UpdatePackageField` (database.go lines 369-394): the Go function returns
nothing to its caller; a field outside the `{installed, exporting}` allow-list
is logged and the table is left untouched, otherwise the matching rows of the
container get the one field set. -/
def UpdatePackageField (rows : List PackageInfo) (containerName name fieldName : String)
    (value : Bool) : List PackageInfo :=
  if fieldName = "installed" ∨ fieldName = "exporting" then
    rows.map (fun p =>
      if p.container = containerName ∧ p.name = name then
        (if fieldName = "installed" then { p with installed := value }
         else { p with exporting := value })
      else p)
  else rows

end service

namespace system

/-- The error codes of the `apt` classifier that part_001 treats as benign.
Modelled from the spec: the classifier (`apt.MatchedError`, its codes and
`FindCriticalError`) is referenced by part_001 but its definition is not under
src/; the spec says errors carry a stable code, with `AlreadyNewest` and
`PackageNotInstalled` the benign "state already as desired" codes and all
others fatal. -/
inductive AptErrorCode where
  | alreadyNewest
  | packageNotInstalled
  | unclassified (raw : String)
  | otherCode (tag : String)
deriving DecidableEq, Repr

/-- A classified package-manager error: a stable code plus the literal
parameters extracted from the message.  Modelled from the spec (the
`apt.MatchedError` type is not under src/). -/
structure MatchedError where
  code : AptErrorCode
  params : List String
deriving DecidableEq, Repr

/-- Whether a classified error is one of the benign "already as desired"
codes. -/
def isBenign (e : MatchedError) : Bool :=
  e.code = AptErrorCode.alreadyNewest || e.code = AptErrorCode.packageNotInstalled

/-- `apt.FindCriticalError`.  Modelled from the spec: among classified errors,
the first one not belonging to the benign codes (`AlreadyNewest`,
`PackageNotInstalled`) is returned as fatal; when every error is benign the
result is nil. -/
def FindCriticalError : List MatchedError → Option MatchedError
  | [] => none
  | e :: rest => if isBenign e then FindCriticalError rest else some e

end system

/-- `lit` occurs, ASCII-case-insensitively, as a contiguous segment of `s`. -/
def OccursCI (lit s : List Char) : Prop :=
  ∃ u m r, s = u ++ m ++ r ∧ ciEqL lit m = true

namespace system

/-- The uniform response shape of the actions: an error flag, the
human-readable message, and the list of alternative package names offered
under the `"packages"` data key (empty when the response carries none). -/
structure APIResponse where
  error : Bool
  message : String
  packages : List String
deriving DecidableEq, Repr

/-- The name-resolution loop of `system.Actions.Remove` (part_001 lines
222-235): each requested name goes through `GetPackageByName`, and the first
lookup failure aborts the whole request with an error response carrying only
the lookup error — no provides search and no alternative names, unlike the
fallback in `Actions.Install`. -/
def removeResolveNames (table : List apt.Package) :
    List String → Except APIResponse (List apt.Package)
  | [] => Except.ok []
  | pkg :: rest =>
      match apt.GetPackageByName table pkg with
      | Except.error msg => Except.error { error := true, message := msg, packages := [] }
      | Except.ok info => (removeResolveNames table rest).map (fun l => info :: l)

/-- The canonical-name loop of `Actions.applyChange` (part_001 lines
930-940), on the reversed character list: while the current name is nonempty
and its last character is `+` or `-`, strip that character and retry the
lookup `db`, breaking out on a hit. -/
def stripLoop (db : List Char → Bool) : List Char → List Char
  | [] => []
  | c :: rest =>
      if c = '+' ∨ c = '-' then
        if db rest.reverse then rest else stripLoop db rest
      else c :: rest

/-- `applyChange`'s canonicalisation of one requested name: if the exact
lookup succeeds the name is kept, otherwise trailing pin markers are stripped
one per retry. -/
def canonicalize (db : List Char → Bool) (s : List Char) : List Char :=
  if db s then s else (stripLoop db s.reverse).reverse

end system

/-! ## C1 — SavePackagesToDB atomicity -/

/-- **C1** as stated by the spec would require: whenever a batch insert fails,
the table is left exactly as it was before the call.  This closed
counterexample runs `apt.SavePackagesToDB` on a one-row prior snapshot with
every batch `Exec` failing: the operation errors, yet the table is left empty
rather than with the prior row, because the `DELETE` ran outside the rolled
back transaction. -/
theorem savePackagesToDB_not_atomic :
    ((apt.SavePackagesToDB (fun _ => true)
        (some [{ name := "old", section' := "", installedSize := 0, maintainer := "",
                 version := "1", versionInstalled := "", depends := [], provides := [],
                 size := 0, filename := "", description := "", changelog := "",
                 installed := false }])
        [{ name := "new", section' := "", installedSize := 0, maintainer := "",
           version := "2", versionInstalled := "", depends := [], provides := [],
           size := 0, filename := "", description := "", changelog := "",
           installed := false }]).1 = Except.error () ∧
     (apt.SavePackagesToDB (fun _ => true)
        (some [{ name := "old", section' := "", installedSize := 0, maintainer := "",
                 version := "1", versionInstalled := "", depends := [], provides := [],
                 size := 0, filename := "", description := "", changelog := "",
                 installed := false }])
        [{ name := "new", section' := "", installedSize := 0, maintainer := "",
           version := "2", versionInstalled := "", depends := [], provides := [],
           size := 0, filename := "", description := "", changelog := "",
           installed := false }]).2 ≠
       some [{ name := "old", section' := "", installedSize := 0, maintainer := "",
               version := "1", versionInstalled := "", depends := [], provides := [],
               size := 0, filename := "", description := "", changelog := "",
               installed := false }]) := by
  constructor
  · simp [apt.SavePackagesToDB, apt.insertBatches]
  · simp [apt.SavePackagesToDB, apt.insertBatches]

/-- **C1 (amended)** — when any batch insert of `SavePackagesToDB` fails, the
insert transaction is rolled back so none of the new packages persist, but the
scope's prior rows were already deleted outside the transaction: the table is
left empty, not with the prior snapshot. -/
theorem savePackagesToDB_failure_leaves_empty (failOn : Nat → Bool) (st : apt.PackageTable)
    (packages : List apt.Package)
    (hfail : (apt.SavePackagesToDB failOn st packages).1 = Except.error ()) :
    (apt.SavePackagesToDB failOn st packages).2 = some [] := by
  unfold apt.SavePackagesToDB at *
  cases h : apt.insertBatches failOn 0 packages with
  | ok rows => simp [h] at hfail
  | error e => simp [h]

/-- Witness for `savePackagesToDB_failure_leaves_empty` at a concrete failing
run. -/
theorem savePackagesToDB_failure_leaves_empty_witness :
    (apt.SavePackagesToDB (fun _ => true) (some [])
        [{ name := "new", section' := "", installedSize := 0, maintainer := "",
           version := "2", versionInstalled := "", depends := [], provides := [],
           size := 0, filename := "", description := "", changelog := "",
           installed := false }]).2 = some [] :=
  savePackagesToDB_failure_leaves_empty (fun _ => true) (some []) _
    (by simp [apt.SavePackagesToDB, apt.insertBatches])

/-! ## C3 — FindCriticalError -/

/-- **C3** — `FindCriticalError` returns `none` exactly when every classified
error has a benign code (`AlreadyNewest` or `PackageNotInstalled`); and
whenever the list splits as benign errors followed by a first non-benign
error, that error is returned, preserving encounter order. -/
theorem findCriticalError_spec (l : List system.MatchedError) :
    (system.FindCriticalError l = none ↔
      ∀ e ∈ l, e.code = system.AptErrorCode.alreadyNewest ∨
        e.code = system.AptErrorCode.packageNotInstalled) ∧
    (∀ (l₁ : List system.MatchedError) (e : system.MatchedError) (l₂ : List system.MatchedError),
      l = l₁ ++ e :: l₂ → (∀ x ∈ l₁, system.isBenign x = true) → system.isBenign e = false →
      system.FindCriticalError l = some e) := by
  constructor
  · induction l with
    | nil => simp [system.FindCriticalError]
    | cons a rest ih =>
      by_cases hb : system.isBenign a = true
      · have hcode : a.code = system.AptErrorCode.alreadyNewest ∨
            a.code = system.AptErrorCode.packageNotInstalled := by
          simpa [system.isBenign, decide_eq_true_eq] using hb
        simp only [system.FindCriticalError, hb, if_true]
        constructor
        · intro h e he
          rcases List.mem_cons.mp he with rfl | hmem
          · exact hcode
          · exact (ih.mp h) e hmem
        · intro h
          exact ih.mpr (fun e he => h e (List.mem_cons_of_mem a he))
      · simp only [system.FindCriticalError, hb, if_false]
        constructor
        · intro h; cases h
        · intro h
          exact absurd (by simpa [system.isBenign, decide_eq_true_eq] using h a (by simp)) hb
  · intro l₁ e l₂ hsplit hben hcrit
    subst hsplit
    induction l₁ with
    | nil => simp [system.FindCriticalError, hcrit]
    | cons a rest ih =>
      have ha : system.isBenign a = true := hben a (by simp)
      simp only [List.cons_append, system.FindCriticalError, ha, if_true]
      exact ih (fun x hx => hben x (List.mem_cons_of_mem a hx))

/-- Witness for `findCriticalError_spec`: a benign error followed by a
critical one yields the critical one. -/
theorem findCriticalError_spec_witness :
    system.FindCriticalError
      [⟨system.AptErrorCode.alreadyNewest, ["pkg"]⟩,
       ⟨system.AptErrorCode.otherCode "broken", ["pkg2"]⟩] =
      some ⟨system.AptErrorCode.otherCode "broken", ["pkg2"]⟩ :=
  (findCriticalError_spec _).2
    [⟨system.AptErrorCode.alreadyNewest, ["pkg"]⟩]
    ⟨system.AptErrorCode.otherCode "broken", ["pkg2"]⟩ []
    (by rfl) (by decide) (by decide)

/-! ## C4 — SyncPackageInstallationInfo (ReconcileInstalled) -/

/-- A key has a lookup result in an association list iff it is among the
keys. -/
lemma lookup_isSome_iff_mem_keys (M : List (String × String)) (k : String) :
    ((M.lookup k).isSome = true) ↔ k ∈ M.map Prod.fst := by
  induction M with
  | nil => simp [List.lookup]
  | cons a t ih =>
    obtain ⟨x, y⟩ := a
    by_cases hx : k = x
    · subst hx
      simp [List.lookup]
    · have hbeq : (k == x) = false := by
        simpa [beq_iff_eq] using hx
      simp only [List.lookup, hbeq, List.map_cons, List.mem_cons]
      rw [ih]
      constructor
      · intro h; exact Or.inr h
      · rintro (h | h)
        · exact absurd h hx
        · exact h

/-- **C4** — after `SyncPackageInstallationInfo` with installed set `M` (keys
distinct, as a Go map guarantees): the row count is unchanged, row `i` keeps
its name and all metadata fields, `installed` holds iff the row's name is a
key of `M`, and `versionInstalled` is `M`'s version for the name when present
and `""` otherwise. -/
theorem syncPackageInstallationInfo_spec (table : List apt.Package)
    (M : List (String × String)) (hkeys : (M.map Prod.fst).Nodup) :
    (apt.SyncPackageInstallationInfo table M).length = table.length ∧
    ∀ (i : Nat) (hi : i < table.length)
      (hi' : i < (apt.SyncPackageInstallationInfo table M).length),
      ((apt.SyncPackageInstallationInfo table M).get ⟨i, hi'⟩).name = (table.get ⟨i, hi⟩).name ∧
      ((apt.SyncPackageInstallationInfo table M).get ⟨i, hi'⟩).installed =
        ((M.lookup (table.get ⟨i, hi⟩).name).isSome) ∧
      (((apt.SyncPackageInstallationInfo table M).get ⟨i, hi'⟩).installed = true ↔
        (table.get ⟨i, hi⟩).name ∈ M.map Prod.fst) ∧
      ((apt.SyncPackageInstallationInfo table M).get ⟨i, hi'⟩).versionInstalled =
        ((M.lookup (table.get ⟨i, hi⟩).name).getD "") ∧
      ((apt.SyncPackageInstallationInfo table M).get ⟨i, hi'⟩).section' =
        (table.get ⟨i, hi⟩).section' ∧
      ((apt.SyncPackageInstallationInfo table M).get ⟨i, hi'⟩).version =
        (table.get ⟨i, hi⟩).version ∧
      ((apt.SyncPackageInstallationInfo table M).get ⟨i, hi'⟩).depends =
        (table.get ⟨i, hi⟩).depends ∧
      ((apt.SyncPackageInstallationInfo table M).get ⟨i, hi'⟩).provides =
        (table.get ⟨i, hi⟩).provides := by
  constructor
  · simp [apt.SyncPackageInstallationInfo]
  · intro i hi hi'
    simp only [List.get_eq_getElem, apt.SyncPackageInstallationInfo, List.getElem_map]
    exact ⟨trivial, trivial, lookup_isSome_iff_mem_keys M _, trivial, trivial, trivial,
      trivial, trivial⟩

/-- Witness for `syncPackageInstallationInfo_spec` on the spec's own scenario:
packages `A`,`B` uninstalled, reconcile with `{A ↦ v1}`. -/
theorem syncPackageInstallationInfo_spec_witness :
    (apt.SyncPackageInstallationInfo
        [{ name := "A", section' := "", installedSize := 0, maintainer := "",
           version := "v1", versionInstalled := "", depends := [], provides := [],
           size := 0, filename := "", description := "", changelog := "",
           installed := false },
         { name := "B", section' := "", installedSize := 0, maintainer := "",
           version := "v2", versionInstalled := "", depends := [], provides := [],
           size := 0, filename := "", description := "", changelog := "",
           installed := false }] [("A", "v1")]).length = 2 := by
  have h := syncPackageInstallationInfo_spec
    [{ name := "A", section' := "", installedSize := 0, maintainer := "",
       version := "v1", versionInstalled := "", depends := [], provides := [],
       size := 0, filename := "", description := "", changelog := "",
       installed := false },
     { name := "B", section' := "", installedSize := 0, maintainer := "",
       version := "v2", versionInstalled := "", depends := [], provides := [],
       size := 0, filename := "", description := "", changelog := "",
       installed := false }] [("A", "v1")] (by decide)
  exact h.1

/-! ## C9 — existence checks -/

/-- **C9** fails on the code: `PackageDatabaseExist` scans
`SELECT COUNT(*)` but never compares the count with zero, so an existing
`host_image_packages` table with zero rows still reports success — against
the claim, the function's own doc comment, and the behaviour of
`DatabaseExist`/`ContainerDatabaseExist`, which do check `count == 0`. -/
theorem packageDatabaseExist_empty_reports_success :
    apt.PackageDatabaseExist (some []) = Except.ok () := rfl

/-! ## C10 — UpdatePackageField frame property -/

/-- **C10** — for a field name outside the `{installed, exporting}`
allow-list, `UpdatePackageField` leaves every row unchanged (the Go function
has no return value, so nothing is reported to its caller; the rejection is
only logged). -/
theorem updatePackageField_frame (rows : List service.PackageInfo)
    (containerName name fieldName : String) (value : Bool)
    (h1 : fieldName ≠ "installed") (h2 : fieldName ≠ "exporting") :
    service.UpdatePackageField rows containerName name fieldName value = rows := by
  simp [service.UpdatePackageField, h1, h2]

/-- Witness for `updatePackageField_frame`: updating field `"name"` is
refused and changes nothing. -/
theorem updatePackageField_frame_witness :
    service.UpdatePackageField
      [{ name := "bash", version := "5", description := "", container := "c1",
         installed := true, exporting := false, manager := "apt-get" }]
      "c1" "bash" "name" true =
      [{ name := "bash", version := "5", description := "", container := "c1",
         installed := true, exporting := false, manager := "apt-get" }] :=
  updatePackageField_frame _ _ _ _ _ (by decide) (by decide)

/-! ## C2 — allow-list validation of filters and sort -/

/-- A `buildConds` error is always an invalid-filter-field error naming a
field outside the allow-list and carrying the allow-list. -/
lemma buildConds_error_shape (filters : List (String × service.Value))
    (e : service.QueryError) (h : service.buildConds filters = Except.error e) :
    ∃ f, f ∉ service.allowedFilterFields ∧
      e = service.QueryError.invalidFilterField f service.allowedFilterFields := by
  induction filters with
  | nil => simp [service.buildConds] at h
  | cons p rest ih =>
    obtain ⟨field, value⟩ := p
    by_cases hall : field ∈ service.allowedFilterFields
    · by_cases hbool : field = "installed" ∨ field = "exporting"
      · rcases hpv : service.ParseBool value with _ | b
        · simp only [service.buildConds, if_pos hall, if_pos hbool, hpv] at h
          exact ih h
        · simp only [service.buildConds, if_pos hall, if_pos hbool, hpv] at h
          rcases hr : service.buildConds rest with e' | cs
          · rw [hr] at h
            simp [Except.map] at h
            exact ih (by rw [hr, h])
          · rw [hr] at h
            simp [Except.map] at h
      · rcases value with s | n | b
        · simp only [service.buildConds, if_pos hall, if_neg hbool] at h
          rcases hr : service.buildConds rest with e' | cs
          · rw [hr] at h
            simp [Except.map] at h
            exact ih (by rw [hr, h])
          · rw [hr] at h
            simp [Except.map] at h
        · simp only [service.buildConds, if_pos hall, if_neg hbool] at h
          rcases hr : service.buildConds rest with e' | cs
          · rw [hr] at h
            simp [Except.map] at h
            exact ih (by rw [hr, h])
          · rw [hr] at h
            simp [Except.map] at h
        · simp only [service.buildConds, if_pos hall, if_neg hbool] at h
          rcases hr : service.buildConds rest with e' | cs
          · rw [hr] at h
            simp [Except.map] at h
            exact ih (by rw [hr, h])
          · rw [hr] at h
            simp [Except.map] at h
    · simp only [service.buildConds, if_neg hall] at h
      exact ⟨field, hall, by cases h; rfl⟩

/-- When some filter field is outside the allow-list, `buildConds` fails. -/
lemma buildConds_error_of_bad_field (filters : List (String × service.Value))
    (hbad : ∃ p ∈ filters, p.1 ∉ service.allowedFilterFields) :
    ∃ e, service.buildConds filters = Except.error e := by
  induction filters with
  | nil => simp at hbad
  | cons p rest ih =>
    obtain ⟨field, value⟩ := p
    by_cases hall : field ∈ service.allowedFilterFields
    · have hrest : ∃ q ∈ rest, q.1 ∉ service.allowedFilterFields := by
        rcases hbad with ⟨q, hq, hqbad⟩
        rcases List.mem_cons.mp hq with rfl | hq'
        · exact absurd hall hqbad
        · exact ⟨q, hq', hqbad⟩
      obtain ⟨e, he⟩ := ih hrest
      by_cases hbool : field = "installed" ∨ field = "exporting"
      · rcases hpv : service.ParseBool value with _ | b
        · exact ⟨e, by simp only [service.buildConds, if_pos hall, if_pos hbool, hpv]; exact he⟩
        · exact ⟨e, by simp only [service.buildConds, if_pos hall, if_pos hbool, hpv, he,
            Except.map]⟩
      · rcases value with s | n | b
        · exact ⟨e, by simp only [service.buildConds, if_pos hall, if_neg hbool, he, Except.map]⟩
        · exact ⟨e, by simp only [service.buildConds, if_pos hall, if_neg hbool, he, Except.map]⟩
        · exact ⟨e, by simp only [service.buildConds, if_pos hall, if_neg hbool, he, Except.map]⟩
    · exact ⟨service.QueryError.invalidFilterField field service.allowedFilterFields,
        by simp only [service.buildConds, if_neg hall]⟩

/-- **C2** — if any filter field, or a nonempty sort field, is outside its
allow-list, `QueryPackages` fails with the corresponding invalid-field error
(naming the rejected field and carrying the allow-list), and the result does
not depend on the table's rows: no query is executed. -/
theorem queryPackages_invalid_field (containerName : String)
    (filters : List (String × service.Value)) (sortField sortOrder : String)
    (limit offset : Int)
    (hbad : (∃ p ∈ filters, p.1 ∉ service.allowedFilterFields) ∨
      (sortField ≠ "" ∧ sortField ∉ service.allowedSortFields)) :
    ∃ f : String,
      (f ∉ service.allowedFilterFields ∧ ∀ rows,
        service.QueryPackages rows containerName filters sortField sortOrder limit offset =
          Except.error (service.QueryError.invalidFilterField f service.allowedFilterFields)) ∨
      (f ∉ service.allowedSortFields ∧ ∀ rows,
        service.QueryPackages rows containerName filters sortField sortOrder limit offset =
          Except.error (service.QueryError.invalidSortField f service.allowedSortFields)) := by
  rcases hfc : service.buildConds filters with e | conds
  · obtain ⟨f, hf, rfl⟩ := buildConds_error_shape filters e hfc
    exact ⟨f, Or.inl ⟨hf, fun rows => by simp only [service.QueryPackages, hfc]⟩⟩
  · rcases hbad with hfilters | ⟨hne, hnotallowed⟩
    · obtain ⟨e, he⟩ := buildConds_error_of_bad_field filters hfilters
      rw [hfc] at he
      cases he
    · refine ⟨sortField, Or.inr ⟨hnotallowed, fun rows => ?_⟩⟩
      simp only [service.QueryPackages, hfc]
      rw [if_pos ⟨hne, hnotallowed⟩]

/-- Witness for `queryPackages_invalid_field`: filtering on `"maintainer"`
(not a distrobox field) fails without reading any row. -/
theorem queryPackages_invalid_field_witness :
    ∃ f : String,
      (f ∉ service.allowedFilterFields ∧ ∀ rows,
        service.QueryPackages rows "" [("maintainer", service.Value.str "x")] "" "" 0 0 =
          Except.error (service.QueryError.invalidFilterField f service.allowedFilterFields)) ∨
      (f ∉ service.allowedSortFields ∧ ∀ rows,
        service.QueryPackages rows "" [("maintainer", service.Value.str "x")] "" "" 0 0 =
          Except.error (service.QueryError.invalidSortField f service.allowedSortFields)) :=
  queryPackages_invalid_field "" [("maintainer", service.Value.str "x")] "" "" 0 0
    (Or.inl ⟨("maintainer", service.Value.str "x"), by simp, by decide⟩)

/-! ## C8 — unparseable boolean filter values are skipped -/

/-- Dropping a boolean-field filter entry whose value does not parse leaves
`buildConds` unchanged. -/
lemma buildConds_skip_unparseable (pre post : List (String × service.Value))
    (f : String) (v : service.Value)
    (hf : f = "installed" ∨ f = "exporting") (hv : service.ParseBool v = none) :
    service.buildConds (pre ++ (f, v) :: post) = service.buildConds (pre ++ post) := by
  induction pre with
  | nil =>
    have hall : f ∈ service.allowedFilterFields := by
      rcases hf with rfl | rfl <;> decide
    simp only [List.nil_append, service.buildConds, if_pos hall, if_pos hf, hv]
  | cons p rest ih =>
    obtain ⟨field, value⟩ := p
    by_cases hall : field ∈ service.allowedFilterFields
    · by_cases hbool : field = "installed" ∨ field = "exporting"
      · rcases hpv : service.ParseBool value with _ | b
        · simp only [List.cons_append, service.buildConds, if_pos hall, if_pos hbool, hpv]
          exact ih
        · simp only [List.cons_append, service.buildConds, if_pos hall, if_pos hbool, hpv]
          exact congrArg _ ih
      · rcases value with s | n | b <;>
          (simp only [List.cons_append, service.buildConds, if_pos hall, if_neg hbool]
           exact congrArg _ ih)
    · simp only [List.cons_append, service.buildConds, if_neg hall]

/-- **C8** — for a boolean filter field (`installed`/`exporting`) whose value
cannot be parsed as a boolean, the filter is silently skipped: the query
result equals the result of the same query without that filter, for every
table state and every surrounding filter list. -/
theorem queryPackages_unparseable_bool_skipped (rows : List service.PackageInfo)
    (containerName : String) (pre post : List (String × service.Value))
    (f : String) (v : service.Value) (sortField sortOrder : String) (limit offset : Int)
    (hf : f = "installed" ∨ f = "exporting") (hv : service.ParseBool v = none) :
    service.QueryPackages rows containerName (pre ++ (f, v) :: post)
        sortField sortOrder limit offset =
      service.QueryPackages rows containerName (pre ++ post) sortField sortOrder limit offset := by
  simp only [service.QueryPackages, buildConds_skip_unparseable pre post f v hf hv]

/-- Witness for `queryPackages_unparseable_bool_skipped`:
`installed = "banana"` is ignored. -/
theorem queryPackages_unparseable_bool_skipped_witness :
    service.QueryPackages
        [{ name := "bash", version := "5", description := "", container := "c1",
           installed := true, exporting := false, manager := "apt-get" }]
        "" [("installed", service.Value.str "banana")] "" "" 0 0 =
      service.QueryPackages
        [{ name := "bash", version := "5", description := "", container := "c1",
           installed := true, exporting := false, manager := "apt-get" }]
        "" [] "" "" 0 0 :=
  queryPackages_unparseable_bool_skipped _ "" [] [] "installed"
    (service.Value.str "banana") "" "" 0 0 (Or.inl rfl) (by decide)

/-! ## C5 — Remove with a provides-matched name -/

/-- **C5** as stated fails on the code: for a Remove request whose name has
no exact match but is provides-matched by a row (here the store's only row
provides `"foo"`), `Actions.Remove` does *not* search by provides — it
returns the bare lookup-failure response with an empty alternatives list.
The provides fallback exists only in `Actions.Install`. -/
theorem remove_offers_no_provides_alternatives :
    (apt.matchesMulti "foo"
        ({ name := "libfoo", section' := "", installedSize := 0, maintainer := "",
           version := "1", versionInstalled := "", depends := [], provides := ["foo"],
           size := 0, filename := "", description := "", changelog := "",
           installed := true } : apt.Package).provides = true) ∧
    system.removeResolveNames
        [{ name := "libfoo", section' := "", installedSize := 0, maintainer := "",
           version := "1", versionInstalled := "", depends := [], provides := ["foo"],
           size := 0, filename := "", description := "", changelog := "",
           installed := true }] ["foo"] =
      Except.error
        { error := true, message := "failed to get information about package foo",
          packages := [] } := by
  constructor
  · decide
  · rfl

/-- **C5 (amended)** — a Remove request containing a name with no exact match
in the metadata store fails with the package-not-found lookup error and an
empty alternatives list (no provides search is attempted for Remove), and no
mutation occurs: the resolution loop aborts before any action. -/
theorem removeResolve_miss_fails_without_alternatives (table : List apt.Package)
    (names : List String) (h : ∃ n ∈ names, ∀ p ∈ table, p.name ≠ n) :
    ∃ n, n ∈ names ∧ (∀ p ∈ table, p.name ≠ n) ∧
      system.removeResolveNames table names =
        Except.error
          { error := true, message := "failed to get information about package " ++ n,
            packages := [] } := by
  induction names with
  | nil => simp at h
  | cons n₀ rest ih =>
    rcases hfind : table.find? (fun p => p.name = n₀) with _ | info
    · refine ⟨n₀, by simp, ?_, ?_⟩
      · intro p hp
        have := List.find?_eq_none.mp hfind p hp
        simpa using this
      · simp only [system.removeResolveNames, apt.GetPackageByName, hfind]
    · have hmem := List.mem_of_find?_eq_some hfind
      have hname : info.name = n₀ := by
        have := List.find?_some hfind
        simpa using this
      have hrest : ∃ n ∈ rest, ∀ p ∈ table, p.name ≠ n := by
        rcases h with ⟨n, hn, hnomatch⟩
        rcases List.mem_cons.mp hn with rfl | hn'
        · exact absurd hname (hnomatch info hmem)
        · exact ⟨n, hn', hnomatch⟩
      obtain ⟨n, hn, hnomatch, hres⟩ := ih hrest
      refine ⟨n, List.mem_cons_of_mem _ hn, hnomatch, ?_⟩
      simp only [system.removeResolveNames, apt.GetPackageByName, hfind, hres, Except.map]

/-- Witness for `removeResolve_miss_fails_without_alternatives` on an empty
store. -/
theorem removeResolve_miss_fails_without_alternatives_witness :
    ∃ n, n ∈ ["ghost"] ∧ (∀ p ∈ ([] : List apt.Package), p.name ≠ n) ∧
      system.removeResolveNames [] ["ghost"] =
        Except.error
          { error := true, message := "failed to get information about package " ++ n,
            packages := [] } :=
  removeResolve_miss_fails_without_alternatives [] ["ghost"]
    ⟨"ghost", by simp, by simp⟩

/-! ## C6 — pin-marker stripping in applyChange -/

/-- Characterisation of `stripLoop` on the reversed name `r`: it drops some
count `k` of leading (reversed-trailing) characters, all of them pin markers;
every intermediate lookup after a strip failed (otherwise the loop breaks);
and it stops on a successful lookup, on the empty name, or when no marker is
left in front. -/
lemma stripLoop_spec (db : List Char → Bool) (r : List Char) :
    ∃ k, k ≤ r.length ∧ system.stripLoop db r = r.drop k ∧
      (∀ c ∈ r.take k, c = '+' ∨ c = '-') ∧
      (∀ j, 1 ≤ j → j < k → db (r.drop j).reverse = false) ∧
      (db (r.drop k).reverse = true ∨ r.drop k = [] ∨
        ∀ c, (r.drop k).head? = some c → ¬(c = '+' ∨ c = '-')) := by
  induction r with
  | nil =>
    exact ⟨0, by simp, by simp [system.stripLoop], by simp, by simp, Or.inr (Or.inl rfl)⟩
  | cons c rest ih =>
    by_cases hmark : c = '+' ∨ c = '-'
    · by_cases hdb : db rest.reverse = true
      · refine ⟨1, by simp, ?_, ?_, ?_, Or.inl ?_⟩
        · simp [system.stripLoop, hmark, hdb]
        · intro x hx
          simp only [List.take_succ_cons, List.take_zero] at hx
          rcases List.mem_singleton.mp hx with rfl
          exact hmark
        · intro j h1 hj; omega
        · simpa using hdb
      · obtain ⟨k, hk, hres, hmarks, hfails, hstop⟩ := ih
        refine ⟨k + 1, by simpa using Nat.succ_le_succ hk, ?_, ?_, ?_, ?_⟩
        · simp only [system.stripLoop, if_pos hmark, if_neg hdb, List.drop_succ_cons]
          exact hres
        · intro x hx
          simp only [List.take_succ_cons, List.mem_cons] at hx
          rcases hx with rfl | hx
          · exact hmark
          · exact hmarks x hx
        · intro j h1 hj
          cases j with
          | zero => omega
          | succ i =>
            rw [List.drop_succ_cons]
            rcases Nat.eq_zero_or_pos i with hz | hpos
            · subst hz
              simpa using Bool.eq_false_iff.mpr hdb
            · exact hfails i hpos (by omega)
        · rw [List.drop_succ_cons]
          exact hstop
    · refine ⟨0, by simp, ?_, by simp, ?_, Or.inr (Or.inr ?_)⟩
      · simp [system.stripLoop, hmark]
      · intro j h1 h2
        exact absurd h2 (by omega)
      · intro x hx
        simp only [List.drop_zero, List.head?_cons, Option.some.injEq] at hx
        subst hx
        exact hmark

/-- **C6** — `applyChange`'s name resolution returns a truncation `s.take m`
of the requested name from which only trailing pin markers (`+`/`-`) were
removed, one per retry; every lookup attempted on a longer truncation
(including the full name) failed; and the process stops exactly on a lookup
hit, on the empty name, or when the remaining name no longer ends with a pin
marker. -/
theorem applyChange_resolution_strips_markers (db : List Char → Bool) (s : List Char) :
    ∃ m, m ≤ s.length ∧ system.canonicalize db s = s.take m ∧
      (∀ c ∈ s.drop m, c = '+' ∨ c = '-') ∧
      (∀ j, m < j → j ≤ s.length → db (s.take j) = false) ∧
      (db (s.take m) = true ∨ s.take m = [] ∨
        ∀ c, (s.take m).getLast? = some c → ¬(c = '+' ∨ c = '-')) := by
  by_cases hdb : db s = true
  · refine ⟨s.length, le_refl _, ?_, by simp, ?_, Or.inl (by simpa using hdb)⟩
    · simp [system.canonicalize, hdb]
    · intro j hj hj'; omega
  · obtain ⟨k, hk, hres, hmarks, hfails, hstop⟩ := stripLoop_spec db s.reverse
    rw [List.length_reverse] at hk
    have hdrop : ∀ j : Nat, (s.reverse.drop j).reverse = s.take (s.length - j) := by
      intro j
      rw [← List.rdrop_eq_reverse_drop_reverse]
      rfl
    have htake : s.reverse.take k = (s.drop (s.length - k)).reverse := by
      have h1 := List.rtake_eq_reverse_take_reverse (l := s) (n := k)
      have h2 : s.rtake k = s.drop (s.length - k) := rfl
      rw [h2] at h1
      rw [h1, List.reverse_reverse]
    refine ⟨s.length - k, Nat.sub_le _ _, ?_, ?_, ?_, ?_⟩
    · rw [system.canonicalize, if_neg hdb, hres, hdrop k]
    · intro c hc
      apply hmarks c
      rw [htake]
      exact List.mem_reverse.mpr hc
    · intro j hj hj'
      rcases Nat.lt_or_ge j s.length with hlt | hge
      · have hj1 : 1 ≤ s.length - j := by omega
        have hj2 : s.length - j < k := by omega
        have h3 := hfails (s.length - j) hj1 hj2
        rw [hdrop (s.length - j)] at h3
        have hjj : s.length - (s.length - j) = j := by omega
        rwa [hjj] at h3
      · have hjeq : j = s.length := by omega
        subst hjeq
        rw [List.take_length]
        exact Bool.eq_false_iff.mpr (fun hh => hdb hh)
    · rcases hstop with h1 | h2 | h3
      · rw [hdrop k] at h1
        exact Or.inl h1
      · refine Or.inr (Or.inl ?_)
        rw [← hdrop k, h2]
        rfl
      · refine Or.inr (Or.inr ?_)
        intro c hc
        apply h3 c
        have hrev : s.reverse.drop k = (s.take (s.length - k)).reverse := by
          rw [← hdrop k, List.reverse_reverse]
        rw [hrev, List.head?_reverse]
        exact hc

/-- Witness for `applyChange_resolution_strips_markers` at a concrete lookup
set and name. -/
theorem applyChange_resolution_strips_markers_witness :
    ∃ m, m ≤ (['p', 'k', 'g', '+', '-'] : List Char).length ∧
      system.canonicalize (fun l => l = ['p', 'k', 'g']) ['p', 'k', 'g', '+', '-'] =
        (['p', 'k', 'g', '+', '-'] : List Char).take m ∧
      (∀ c ∈ (['p', 'k', 'g', '+', '-'] : List Char).drop m, c = '+' ∨ c = '-') ∧
      (∀ j, m < j → j ≤ (['p', 'k', 'g', '+', '-'] : List Char).length →
        (fun l => decide (l = ['p', 'k', 'g'])) ((['p', 'k', 'g', '+', '-'] : List Char).take j) = false) ∧
      ((fun l => decide (l = ['p', 'k', 'g'])) ((['p', 'k', 'g', '+', '-'] : List Char).take m) = true ∨
        (['p', 'k', 'g', '+', '-'] : List Char).take m = [] ∨
        ∀ c, ((['p', 'k', 'g', '+', '-'] : List Char).take m).getLast? = some c →
          ¬(c = '+' ∨ c = '-')) :=
  applyChange_resolution_strips_markers (fun l => decide (l = ['p', 'k', 'g']))
    ['p', 'k', 'g', '+', '-']

/-! ## C7 — provides/depends matching: LIKE-pattern machinery -/

/-- `Char.ofNat` of a valid codepoint evaluates back to that codepoint. -/
lemma char_toNat_ofNat {n : Nat} (h : n.isValidChar) : (Char.ofNat n).toNat = n := by
  rw [Char.ofNat, dif_pos h]
  rfl

/-- Character order gives codepoint order. -/
lemma char_toNat_le_of_le {a b : Char} (h : a ≤ b) : a.toNat ≤ b.toNat := by
  rw [Char.le_def, UInt32.le_def, BitVec.le_def] at h
  exact h

/-- ASCII lowering maps only `,` to `,`. -/
lemma sqlLower_eq_comma {c : Char} (h : sqlLower c = ',') : c = ',' := by
  unfold sqlLower at h
  by_cases hc : 'A' ≤ c ∧ c ≤ 'Z'
  · rw [if_pos hc] at h
    exfalso
    have h65 : 65 ≤ c.toNat := char_toNat_le_of_le hc.1
    have h90 : c.toNat ≤ 90 := char_toNat_le_of_le hc.2
    have hvalid : (c.toNat + 32).isValidChar := Or.inl (by omega)
    have := congrArg Char.toNat h
    rw [char_toNat_ofNat hvalid] at this
    have hcomma : (',' : Char).toNat = 44 := by decide
    omega
  · rwa [if_neg hc] at h

/-- CI-equal lists have equal length. -/
lemma ciEqL_length {a b : List Char} (h : ciEqL a b = true) : a.length = b.length := by
  induction a generalizing b with
  | nil => cases b with
    | nil => rfl
    | cons d w => simp [ciEqL] at h
  | cons c v ih =>
    cases b with
    | nil => simp [ciEqL] at h
    | cons d w =>
      simp only [ciEqL, Bool.and_eq_true] at h
      simp [ih h.2]

/-- CI equality is reflexive. -/
lemma ciEqL_refl (a : List Char) : ciEqL a a = true := by
  induction a with
  | nil => rfl
  | cons c v ih => simp [ciEqL, ih]

/-- A list CI-equal to a comma-free list is comma-free. -/
lemma ciEqL_comma_free {a b : List Char} (h : ciEqL a b = true) (ha : ',' ∉ a) : ',' ∉ b := by
  induction a generalizing b with
  | nil =>
    cases b with
    | nil => simp
    | cons d w => simp [ciEqL] at h
  | cons c v ih =>
    cases b with
    | nil => simp [ciEqL] at h
    | cons d w =>
      simp only [ciEqL, Bool.and_eq_true, decide_eq_true_eq] at h
      simp only [List.mem_cons, not_or] at ha ⊢
      refine ⟨?_, ih h.2 ha.2⟩
      intro hd
      subst hd
      exact ha.1 (sqlLower_eq_comma h.1).symm

/-- CI equality on a cons pattern forces a cons. -/
lemma ciEqL_cons_iff (c : Char) (v z : List Char) :
    ciEqL (c :: v) z = true ↔
      ∃ d w, z = d :: w ∧ sqlLower c = sqlLower d ∧ ciEqL v w = true := by
  cases z with
  | nil => simp [ciEqL]
  | cons d w =>
    simp only [ciEqL, Bool.and_eq_true, decide_eq_true_eq]
    constructor
    · rintro ⟨h1, h2⟩
      exact ⟨d, w, rfl, h1, h2⟩
    · rintro ⟨d', w', heq, h1, h2⟩
      cases heq
      exact ⟨h1, h2⟩

/-- CI equality on an append pattern splits the target. -/
lemma ciEqL_append_iff (x y z : List Char) :
    ciEqL (x ++ y) z = true ↔
      ∃ z₁ z₂, z = z₁ ++ z₂ ∧ ciEqL x z₁ = true ∧ ciEqL y z₂ = true := by
  induction x generalizing z with
  | nil =>
    simp only [List.nil_append]
    constructor
    · intro h
      exact ⟨[], z, rfl, rfl, h⟩
    · rintro ⟨z₁, z₂, rfl, h1, h2⟩
      cases z₁ with
      | nil => simpa using h2
      | cons d w => simp [ciEqL] at h1
  | cons c x' ih =>
    simp only [List.cons_append, ciEqL_cons_iff]
    constructor
    · rintro ⟨d, w, rfl, hcd, hrest⟩
      obtain ⟨z₁, z₂, rfl, h1, h2⟩ := ih w |>.mp hrest
      exact ⟨d :: z₁, z₂, rfl, ⟨d, z₁, rfl, hcd, h1⟩, h2⟩
    · rintro ⟨z₁, z₂, rfl, h1, h2⟩
      obtain ⟨d, w, heq, hcd, hx⟩ := h1
      subst heq
      exact ⟨d, w ++ z₂, rfl, hcd, (ih _).mpr ⟨w, z₂, rfl, hx, h2⟩⟩

/-- CI equality against the comma-wrapped pattern `,v,`. -/
lemma ciEqL_wrapped_iff (v m : List Char) :
    ciEqL (',' :: v ++ [',']) m = true ↔
      ∃ m', m = ',' :: m' ++ [','] ∧ ciEqL v m' = true := by
  constructor
  · intro h
    obtain ⟨d, w, rfl, hcd, hrest⟩ := (ciEqL_cons_iff ',' (v ++ [',']) m).mp h
    have hd : d = ',' := sqlLower_eq_comma hcd.symm
    subst hd
    obtain ⟨z₁, z₂, rfl, h1, h2⟩ := (ciEqL_append_iff v [','] w).mp hrest
    obtain ⟨e, w', heq, hce, he⟩ := (ciEqL_cons_iff ',' [] z₂).mp h2
    have hz : w' = [] := by
      cases w' with
      | nil => rfl
      | cons a t => simp [ciEqL] at he
    subst hz
    subst heq
    have he' : e = ',' := sqlLower_eq_comma hce.symm
    subst he'
    exact ⟨z₁, rfl, h1⟩
  · rintro ⟨m', rfl, hci⟩
    refine (ciEqL_cons_iff ',' (v ++ [',']) _).mpr ⟨',', m' ++ [','], rfl, rfl, ?_⟩
    refine (ciEqL_append_iff v [','] _).mpr ⟨m', [','], rfl, hci, ?_⟩
    rfl

/-- A leading `%` matches a text iff the rest of the pattern matches some
split-off tail. -/
lemma likeMatch_wild (p s : List Char) :
    likeMatch ('%' :: p) s = true ↔ ∃ u t, s = u ++ t ∧ likeMatch p t = true := by
  have h : likeMatch ('%' :: p) s = s.tails.any (fun t => likeMatch p t) := by
    simp [likeMatch]
  rw [h, List.any_eq_true]
  constructor
  · rintro ⟨t, htmem, ht⟩
    obtain ⟨u, hu⟩ := (List.mem_tails t s).mp htmem
    exact ⟨u, t, hu.symm, ht⟩
  · rintro ⟨u, t, rfl, ht⟩
    exact ⟨t, (List.mem_tails t (u ++ t)).mpr ⟨u, rfl⟩, ht⟩

/-- A trailing lone `%` matches everything. -/
lemma likeMatch_wild_all (s : List Char) : likeMatch ['%'] s = true :=
  (likeMatch_wild [] s).mpr ⟨s, [], by simp, rfl⟩

/-- A wildcard-free pattern segment consumes a CI-equal segment of the
text. -/
lemma likeMatch_lit (lit : List Char) (hlit : ∀ c ∈ lit, ¬c = '%' ∧ ¬c = '_')
    (p s : List Char) :
    likeMatch (lit ++ p) s = true ↔
      ∃ m r, s = m ++ r ∧ ciEqL lit m = true ∧ likeMatch p r = true := by
  induction lit generalizing s with
  | nil =>
    simp only [List.nil_append]
    constructor
    · intro h
      exact ⟨[], s, rfl, rfl, h⟩
    · rintro ⟨m, r, rfl, h1, h2⟩
      cases m with
      | nil => simpa using h2
      | cons a t => simp [ciEqL] at h1
  | cons c lit' ih =>
    have hc : ¬c = '%' ∧ ¬c = '_' := hlit c (by simp)
    have hlit' : ∀ x ∈ lit', ¬x = '%' ∧ ¬x = '_' := fun x hx => hlit x (by simp [hx])
    cases s with
    | nil =>
      simp only [List.cons_append, likeMatch, if_neg hc.1, if_neg hc.2]
      constructor
      · intro h; cases h
      · rintro ⟨m, r, heq, h1, h2⟩
        cases m with
        | nil => simp [ciEqL] at h1
        | cons a t => simp at heq
    | cons d s' =>
      simp only [List.cons_append, likeMatch, if_neg hc.1, if_neg hc.2,
        Bool.and_eq_true, decide_eq_true_eq, List.append_eq]
      rw [ih hlit' s']
      constructor
      · rintro ⟨hcd, m', r, rfl, h1, h2⟩
        exact ⟨d :: m', r, rfl, (ciEqL_cons_iff c lit' _).mpr ⟨d, m', rfl, hcd, h1⟩, h2⟩
      · rintro ⟨m, r, heq, h1, h2⟩
        obtain ⟨e, w, rfl, hce, hw⟩ := (ciEqL_cons_iff c lit' m).mp h1
        simp only [List.cons_append, List.cons.injEq] at heq
        obtain ⟨rfl, rfl⟩ := heq
        exact ⟨hce, w, r, rfl, hw, h2⟩

/-- `matchesMultiC` is exactly CI occurrence of the comma-wrapped value in
the comma-wrapped joined token list. -/
lemma matchesMultiC_iff_occurs (v : List Char) (tokens : List (List Char))
    (hp : '%' ∉ v) (hu : '_' ∉ v) :
    apt.matchesMultiC v tokens = true ↔
      OccursCI (',' :: v ++ [',']) (',' :: joinComma tokens ++ [',']) := by
  have hlit : ∀ c ∈ ',' :: v ++ [','], ¬c = '%' ∧ ¬c = '_' := by
    intro c hc
    rcases List.mem_cons.mp hc with rfl | hc
    · exact ⟨by decide, by decide⟩
    · rcases List.mem_append.mp hc with hc | hc
      · constructor
        · intro h; subst h; exact hp hc
        · intro h; subst h; exact hu hc
      · rcases List.mem_singleton.mp hc with rfl
        exact ⟨by decide, by decide⟩
  have hpat : ('%' :: ',' :: v ++ [',', '%'] : List Char) =
      '%' :: ((',' :: v ++ [',']) ++ ['%']) := by
    simp
  rw [apt.matchesMultiC, hpat, likeMatch_wild]
  constructor
  · rintro ⟨u, t, heq, ht⟩
    obtain ⟨m, r, rfl, h1, _⟩ := (likeMatch_lit _ hlit ['%'] t).mp ht
    exact ⟨u, m, r, by rw [heq, List.append_assoc], h1⟩
  · rintro ⟨u, m, r, heq, h1⟩
    refine ⟨u, m ++ r, by rw [heq, List.append_assoc], ?_⟩
    exact (likeMatch_lit _ hlit ['%'] _).mpr ⟨m, r, rfl, h1, likeMatch_wild_all r⟩

/-- Two comma-free segments closed by a comma and agreeing as lists are
equal. -/
lemma comma_free_head_eq {a b w r : List Char} (ha : ',' ∉ a) (hb : ',' ∉ b)
    (heq : a ++ (',' :: w) = b ++ (',' :: r)) : a = b := by
  induction a generalizing b with
  | nil =>
    cases b with
    | nil => rfl
    | cons d b' =>
      exfalso
      simp only [List.nil_append, List.cons_append, List.cons.injEq] at heq
      simp only [List.mem_cons, not_or] at hb
      exact hb.1 heq.1
  | cons c a' iha =>
    cases b with
    | nil =>
      exfalso
      simp only [List.nil_append, List.cons_append, List.cons.injEq] at heq
      simp only [List.mem_cons, not_or] at ha
      exact ha.1 heq.1.symm
    | cons d b' =>
      simp only [List.cons_append, List.cons.injEq] at heq
      simp only [List.mem_cons, not_or] at ha hb
      rw [heq.1, iha ha.2 hb.2 heq.2]

/-- An occurrence of a comma-led segment inside `t ++ (',' :: w)` with `t`
comma-free already lies inside `',' :: w`. -/
lemma occurs_shift (t w l m r : List Char) (ht : ',' ∉ t)
    (heq : t ++ (',' :: w) = l ++ (',' :: (m ++ (',' :: r)))) :
    ∃ l₂, ',' :: w = l₂ ++ (',' :: (m ++ (',' :: r))) := by
  induction t generalizing l with
  | nil => exact ⟨l, heq⟩
  | cons a t' iht =>
    simp only [List.mem_cons, not_or] at ht
    cases l with
    | nil =>
      exfalso
      simp only [List.nil_append, List.cons_append, List.cons.injEq] at heq
      exact ht.1 heq.1.symm
    | cons b l' =>
      simp only [List.cons_append, List.cons.injEq] at heq
      exact iht l' ht.2 heq.2

/-- Forward tokenization: a comma-delimited occurrence of a nonempty,
comma-free `m` inside the comma-wrapped join of comma-free tokens pins `m`
to one of the tokens. -/
lemma occurs_join_imp (m : List Char) (hm : ',' ∉ m) (hmne : m ≠ [])
    (tokens : List (List Char)) (htok : ∀ tk ∈ tokens, ',' ∉ tk) :
    ∀ l r, ',' :: (joinComma tokens ++ [',']) = l ++ (',' :: (m ++ (',' :: r))) →
      ∃ tk ∈ tokens, m = tk := by
  induction tokens with
  | nil =>
    intro l r heq
    exfalso
    have hlen := congrArg List.length heq
    simp [joinComma] at hlen
    have hpos : 0 < m.length := List.length_pos.mpr hmne
    omega
  | cons t ts ih =>
    intro l r heq
    have ht : ',' ∉ t := htok t (by simp)
    cases ts with
    | nil =>
      simp only [joinComma] at heq
      cases l with
      | nil =>
        simp only [List.nil_append, List.cons.injEq] at heq
        have heq2 : t ++ (',' :: ([] : List Char)) = m ++ (',' :: r) := by
          simpa using heq.2
        exact ⟨t, by simp, (comma_free_head_eq ht hm heq2).symm⟩
      | cons c l' =>
        exfalso
        simp only [List.cons_append, List.cons.injEq] at heq
        have heq2 : t ++ (',' :: ([] : List Char)) = l' ++ (',' :: (m ++ (',' :: r))) := by
          simpa using heq.2
        obtain ⟨l₂, hshift⟩ := occurs_shift t [] l' m r ht heq2
        have hlen := congrArg List.length hshift
        simp [List.length_append] at hlen
        have hpos : 0 < m.length := List.length_pos.mpr hmne
        omega
    | cons u us =>
      have hjoin : joinComma (t :: u :: us) ++ [','] =
          t ++ (',' :: (joinComma (u :: us) ++ [','])) := by
        simp [joinComma]
      rw [hjoin] at heq
      cases l with
      | nil =>
        simp only [List.nil_append, List.cons.injEq] at heq
        exact ⟨t, by simp, (comma_free_head_eq ht hm heq.2).symm⟩
      | cons c l' =>
        simp only [List.cons_append, List.cons.injEq] at heq
        obtain ⟨l₂, hshift⟩ := occurs_shift t _ l' m r ht heq.2
        obtain ⟨tk, htk, hmtk⟩ := ih (fun tk h => htok tk (by simp [h])) l₂ r hshift
        exact ⟨tk, by simp [htk], hmtk⟩

/-- Backward tokenization: every token occurs comma-delimited in the wrapped
join. -/
lemma occurs_join_of_mem (tokens : List (List Char)) (tk : List Char) (h : tk ∈ tokens) :
    ∃ l r, ',' :: (joinComma tokens ++ [',']) = l ++ (',' :: (tk ++ (',' :: r))) := by
  induction tokens with
  | nil => simp at h
  | cons t ts ih =>
    rcases List.mem_cons.mp h with rfl | hts
    · cases ts with
      | nil => exact ⟨[], [], by simp [joinComma]⟩
      | cons u us =>
        refine ⟨[], joinComma (u :: us) ++ [','], ?_⟩
        simp [joinComma]
    · cases ts with
      | nil => simp at hts
      | cons u us =>
        obtain ⟨l, r, hlr⟩ := ih hts
        refine ⟨',' :: t ++ l, r, ?_⟩
        have hjoin : ',' :: (joinComma (t :: u :: us) ++ [',']) =
            ',' :: t ++ (',' :: (joinComma (u :: us) ++ [','])) := by
          simp [joinComma]
        rw [hjoin, hlr]
        simp [List.append_assoc]

/-- Character-level membership characterisation of the multi-valued filter:
for a nonempty value without separator or wildcard characters, against tokens
respecting the no-separator invariant, the wrapped-LIKE condition holds iff
the value is ASCII-case-insensitively equal to one of the tokens. -/
lemma matchesMultiC_membership (v : List Char) (tokens : List (List Char))
    (hv : ',' ∉ v) (hp : '%' ∉ v) (hu : '_' ∉ v) (hne : v ≠ [])
    (htok : ∀ t ∈ tokens, ',' ∉ t) :
    apt.matchesMultiC v tokens = true ↔ ∃ t ∈ tokens, ciEqL v t = true := by
  rw [matchesMultiC_iff_occurs v tokens hp hu]
  constructor
  · rintro ⟨u, mid, r, heq, hci⟩
    obtain ⟨m', hmid, hvm'⟩ := (ciEqL_wrapped_iff v mid).mp hci
    subst hmid
    have hm' : ',' ∉ m' := ciEqL_comma_free hvm' hv
    have hm'ne : m' ≠ [] := by
      intro hz
      subst hz
      exact hne (List.length_eq_zero.mp (ciEqL_length hvm'))
    have heq' : ',' :: (joinComma tokens ++ [',']) = u ++ (',' :: (m' ++ (',' :: r))) := by
      simpa [List.cons_append, List.append_assoc] using heq
    obtain ⟨tk, htk, hmtk⟩ := occurs_join_imp m' hm' hm'ne tokens htok u r heq'
    exact ⟨tk, htk, hmtk ▸ hvm'⟩
  · rintro ⟨tk, htk, hci⟩
    obtain ⟨l, r, hlr⟩ := occurs_join_of_mem tokens tk htk
    refine ⟨l, ',' :: tk ++ [','], r, ?_, ?_⟩
    · simpa [List.cons_append, List.append_assoc] using hlr
    · exact (ciEqL_wrapped_iff v _).mpr ⟨tk, rfl, hci⟩

/-- **C7** as stated fails on the code: the claim's "a row matches iff v is
an exact member of the row's token list" is refuted by the value `"a,b"`
against the token list `["a", "b"]` — the wrapped text `,a,b,` contains the
wrapped value `,a,b,`, so the `LIKE` condition matches, yet `"a,b"` is not a
member of the list. -/
theorem multiValueFilter_not_exact_membership :
    apt.matchesMulti "a,b" ["a", "b"] = true ∧ ("a,b" ∈ (["a", "b"] : List String) → False) := by
  constructor
  · decide
  · decide

/-- **C7 (amended)** — for a multi-valued filter value `v` containing no
separator (`,`) and no `LIKE` wildcard (`%`, `_`), and a row whose token list
respects the no-separator invariant, the wrapped-`LIKE` condition matches iff
`v` equals one of the row's tokens up to ASCII case; in particular a partial
token never matches. -/
theorem multiValueFilter_membership (v : String) (tokens : List String)
    (hv : ',' ∉ v.toList) (hp : '%' ∉ v.toList) (hu : '_' ∉ v.toList)
    (hne : v.toList ≠ []) (htok : ∀ t ∈ tokens, ',' ∉ t.toList) :
    apt.matchesMulti v tokens = true ↔ ∃ t ∈ tokens, ciEqL v.toList t.toList = true := by
  rw [apt.matchesMulti,
    matchesMultiC_membership v.toList (tokens.map String.toList) hv hp hu hne
      (by
        intro t ht
        obtain ⟨t₀, ht₀, rfl⟩ := List.mem_map.mp ht
        exact htok t₀ ht₀)]
  constructor
  · rintro ⟨t, ht, hci⟩
    obtain ⟨t₀, ht₀, rfl⟩ := List.mem_map.mp ht
    exact ⟨t₀, ht₀, hci⟩
  · rintro ⟨t₀, ht₀, hci⟩
    exact ⟨t₀.toList, List.mem_map_of_mem _ ht₀, hci⟩

/-- Witness for `multiValueFilter_membership`: the partial token `"lib"`
never matches a row whose list contains only `"libfoo"`. -/
theorem multiValueFilter_membership_witness :
    apt.matchesMulti "lib" ["libfoo"] = false := by
  have h := multiValueFilter_membership "lib" ["libfoo"] (by decide) (by decide) (by decide)
    (by decide) (by decide)
  cases hb : apt.matchesMulti "lib" ["libfoo"] with
  | false => rfl
  | true =>
    exfalso
    obtain ⟨t, ht, hci⟩ := h.mp hb
    rcases List.mem_singleton.mp ht with rfl
    exact absurd hci (by decide)
